import Mathlib

/-!
Shallow embedding of the portfolio ledger engine of `src/app.py`
(temcee/Stock-app): instrument-code normalization, the trade-recording
handler (trade-log append, holdings weighted-average update, cash
reconciliation), the realized-PnL summarizer, the daily and quarterly
history recorders, and the bounded-retry table-write wrapper.

Strings are modelled as `List Char`; numeric cell values as `ℚ`
(Python ints and floats in the relevant code paths); the Python
built-in `round(x, 0)` as round-half-to-even.
-/

namespace StockApp

/-- Python `round(x, 0)` (banker's rounding, half to even), on `ℚ`. -/
def pyRound (x : ℚ) : ℚ :=
  let f : ℤ := ⌊x⌋
  let frac : ℚ := x - f
  if frac < 1/2 then f
  else if 1/2 < frac then f + 1
  else if f % 2 = 0 then f else f + 1

/-- Python `round(x, 1)` (one decimal digit, half to even), on `ℚ`. -/
def pyRound1 (x : ℚ) : ℚ :=
  pyRound (10 * x) / 10

/-- Python `str.strip()`: remove leading and trailing whitespace
(embedding of the call at `src/app.py:145`). -/
def pyStrip (l : List Char) : List Char :=
  (l.dropWhile Char.isWhitespace).rdropWhile Char.isWhitespace

/-- Embedding of `normalize_code` (`src/app.py:144-150`): strip, upper-case,
return unchanged when a dot is present, append `".T"` when the length is
at most 5, otherwise pass through. -/
def normalize_code (raw : List Char) : List Char :=
  let code := (pyStrip raw).map Char.toUpper
  if '.' ∈ code then code
  else if code.length ≤ 5 then code ++ ['.', 'T']
  else code

/-- Trade side (`売買` column: `買い` = buy, `売り` = sell). -/
inductive Side
  | buy
  | sell
deriving DecidableEq, Repr

/-- A row of the trade-log sheet (`TRADE_COLS`, `src/app.py:32`). -/
structure TradeRecord where
  date : List Char
  code : List Char
  name : List Char
  side : Side
  price : ℚ
  qty : ℚ
  amount : ℚ
  memo : List Char
deriving DecidableEq, Repr

/-- A row of the holdings sheet (`HOLDING_COLS`, `src/app.py:30`). -/
structure Holding where
  code : List Char
  name : List Char
  cost : ℚ
  qty : ℚ
deriving DecidableEq, Repr

/-- The three tables touched by the trade-recording handler. -/
structure LedgerState where
  trades : List TradeRecord
  holdings : List Holding
  cashRows : List ℚ
deriving DecidableEq, Repr

/-- One `save_df` call performed by the trade-recording handler,
with the content it writes. -/
inductive WriteEvent
  | tradeW (rows : List TradeRecord)
  | holdW (rows : List Holding)
  | cashW (balance : ℚ)
deriving DecidableEq, Repr

/-- The table a write event targets. -/
inductive Table
  | tradeLog
  | holdingsT
  | cashT
deriving DecidableEq, Repr

/-- Projection of a write event to its target table. -/
def writeTable : WriteEvent → Table
  | .tradeW _ => .tradeLog
  | .holdW _ => .holdingsT
  | .cashW _ => .cashT

/-- Loading the holdings sheet inside the trade handler
(`src/app.py:603-608`): every code is passed through `normalize_code`
(numeric coercion is the identity in the `ℚ` model). -/
def loadHoldings (hs : List Holding) : List Holding :=
  hs.map (fun h => { h with code := normalize_code h.code })

/-- Buy branch of the holdings auto-update (`src/app.py:613-630`):
the first row with the given code gets `qty + tQty` shares and a
weighted-average cost rounded with `round(., 0)`; if no row matches,
a fresh row with cost `price` is appended. -/
def applyBuy (hs : List Holding) (code name : List Char) (price qty : ℚ) :
    List Holding :=
  match hs with
  | [] => [⟨code, name, price, qty⟩]
  | h :: rest =>
    if h.code = code then
      { h with
        qty := h.qty + qty,
        cost := pyRound ((h.cost * h.qty + price * qty) / (h.qty + qty)) } :: rest
    else h :: applyBuy rest code name price qty

/-- Sell branch of the holdings auto-update (`src/app.py:631-640`):
the first row with the given code loses `qty` shares; when the new
count is not positive the row is dropped; with no matching row the
list is unchanged. -/
def applySell (hs : List Holding) (code : List Char) (qty : ℚ) :
    List Holding :=
  match hs with
  | [] => []
  | h :: rest =>
    if h.code = code then
      if 0 < h.qty - qty then { h with qty := h.qty - qty } :: rest
      else rest
    else h :: applySell rest code qty

/-- Embedding of the `売買を記録` button handler (`src/app.py:582-656`):
validation, trade-log append and save, holdings auto-update and save,
cash auto-update and save. The first component lists the `save_df`
calls in program order with the content written. -/
def recordTrade (st : LedgerState) (tDate tCode : List Char) (side : Side)
    (price qty : ℚ) (memo fetchedName : List Char) :
    List WriteEvent × LedgerState :=
  if tCode ≠ [] ∧ 0 < price ∧ 0 < qty then
    let code_n := normalize_code tCode
    let dispName := if fetchedName = [] then tCode else fetchedName
    let amount := price * qty
    let newTrade : TradeRecord :=
      ⟨tDate, code_n, dispName, side, price, qty, amount, memo⟩
    let trades₁ := st.trades ++ [newTrade]
    let hs := loadHoldings st.holdings
    let hs₁ :=
      match side with
      | .buy => applyBuy hs code_n dispName price qty
      | .sell => applySell hs code_n qty
    let currentCash := st.cashRows.headD 0
    let newCash :=
      match side with
      | .buy => currentCash - amount
      | .sell => currentCash + amount
    ([.tradeW trades₁, .holdW hs₁, .cashW newCash],
     ⟨trades₁, hs₁, [newCash]⟩)
  else ([], st)

/-- Sum of `単価 × 枚数` over the buy rows of a code
(`src/app.py:704`). -/
def buyAmount (ts : List TradeRecord) (code : List Char) : ℚ :=
  ((ts.filter (fun t => t.side = Side.buy ∧ t.code = code)).map
    (fun t => t.price * t.qty)).sum

/-- Sum of `枚数` over the buy rows of a code (`src/app.py:705`). -/
def buyQty (ts : List TradeRecord) (code : List Char) : ℚ :=
  ((ts.filter (fun t => t.side = Side.buy ∧ t.code = code)).map
    (fun t => t.qty)).sum

/-- Sum of `単価 × 枚数` over the sell rows of a code
(`src/app.py:706`). -/
def sellAmount (ts : List TradeRecord) (code : List Char) : ℚ :=
  ((ts.filter (fun t => t.side = Side.sell ∧ t.code = code)).map
    (fun t => t.price * t.qty)).sum

/-- Sum of `枚数` over the sell rows of a code (`src/app.py:707`). -/
def sellQty (ts : List TradeRecord) (code : List Char) : ℚ :=
  ((ts.filter (fun t => t.side = Side.sell ∧ t.code = code)).map
    (fun t => t.qty)).sum

/-- Average cost recomputed by the realized-PnL summarizer
(`src/app.py:708`): `buy_amount / buy_qty` when `buy_qty > 0`, else 0. -/
def summaryAvgCost (ts : List TradeRecord) (code : List Char) : ℚ :=
  if 0 < buyQty ts code then buyAmount ts code / buyQty ts code else 0

/-- Realized PnL computed by the summarizer (`src/app.py:709`). -/
def summaryRealized (ts : List TradeRecord) (code : List Char) : ℚ :=
  if 0 < sellQty ts code then
    sellAmount ts code - summaryAvgCost ts code * sellQty ts code
  else 0

/-- A row of the daily net-worth history sheet (`HISTORY_COLS`,
`src/app.py:31`). -/
structure HistPoint where
  date : List Char
  totalAsset : ℚ
  totalPnL : ℚ
  totalLT : ℚ
deriving DecidableEq, Repr

/-- Daily net-worth auto-record (`src/app.py:416-426`): append a point
for today only when no existing row has today as its date and the
computed total asset is positive. -/
def maybeRecordDaily (hist : List HistPoint) (today : List Char)
    (totalAsset totalPnL totalLT : ℚ) : List HistPoint :=
  if today ∉ hist.map (fun p => p.date) ∧ 0 < totalAsset then
    hist ++ [⟨today, pyRound totalAsset, pyRound totalPnL, pyRound totalLT⟩]
  else hist

/-- A row of the quarterly snapshot sheet (`SNAPSHOT_COLS`,
`src/app.py:33`); indicator fields are `none` when the quote was
missing (`pd.notna` false writes an empty cell). -/
structure SnapRow where
  date : List Char
  code : List Char
  name : List Char
  price : Option ℚ
  per : Option ℚ
  pbr : Option ℚ
  roe : Option ℚ
deriving DecidableEq, Repr

/-- An in-memory holdings row enriched with quote data, as built in
`src/app.py:377-396`. -/
structure QuoteRow where
  code : List Char
  name : List Char
  price : Option ℚ
  per : Option ℚ
  pbr : Option ℚ
  roe : Option ℚ
deriving DecidableEq, Repr

/-- Decimal digits of a natural number, as rendered by a Python
f-string. -/
def natToChars (n : ℕ) : List Char :=
  Nat.toDigits 10 n

/-- Quarter number computed at `src/app.py:435`:
`(today.month - 1) // 3 + 1`. -/
def quarterOf (month : ℕ) : ℕ :=
  (month - 1) / 3 + 1

/-- Quarter key string `f"{today.year}-Q{(today.month - 1) // 3 + 1}"`
(`src/app.py:435`). -/
def quarterKey (year month : ℕ) : List Char :=
  natToChars year ++ '-' :: 'Q' :: natToChars (quarterOf month)

/-- Quarterly snapshot auto-record (`src/app.py:431-452`): when the
month is one of 3, 6, 9, 12, no existing row's date contains the
quarter key as a substring, and at least one holding exists, append
one row per holding whose date field is
`f"{today_str}({quarter_key})"`; otherwise leave the sheet unchanged. -/
def maybeRecordQuarterly (snap : List SnapRow) (year month : ℕ)
    (todayStr : List Char) (holds : List QuoteRow) : List SnapRow :=
  let qk := quarterKey year month
  let isQuarterEnd := month ∈ [3, 6, 9, 12]
  let alreadySnapped := ∃ r ∈ snap, qk <:+: r.date
  if isQuarterEnd ∧ ¬alreadySnapped ∧ holds ≠ [] then
    snap ++ holds.map (fun h =>
      ⟨todayStr ++ '(' :: qk ++ [')'], h.code, h.name,
       h.price.map pyRound, h.per.map pyRound1, h.pbr.map pyRound1,
       h.roe.map pyRound1⟩)
  else snap

/-- Outcome of one `sheet.clear(); sheet.update(...)` attempt inside
`save_df`: success, a `gspread.exceptions.APIError`, or any other
exception (identified by a numeric tag). -/
inductive StoreOutcome
  | ok
  | apiErr (e : ℕ)
  | otherErr (e : ℕ)
deriving DecidableEq, Repr

/-- Observable event of a `save_df` run: an overwrite attempt (by its
zero-based index) or a `time.sleep` of the given duration. -/
inductive SaveEv
  | attempt (i : ℕ)
  | sleep (t : ℕ)
deriving DecidableEq, Repr

/-- Exception propagated out of `save_df`. -/
inductive SaveErr
  | apiErr (e : ℕ)
  | otherErr (e : ℕ)
deriving DecidableEq, Repr

/-- The retry loop of `save_df` (`src/app.py:97-106`) from attempt
index `i`: try the overwrite; on success return; on an APIError sleep
5 and retry unless this was the last attempt, in which case re-raise;
any other exception is not caught and propagates at once. -/
def saveDfFrom (behav : ℕ → StoreOutcome) (retries i : ℕ) :
    List SaveEv × Except SaveErr Unit :=
  if _h : i < retries then
    match behav i with
    | .ok => ([.attempt i], .ok ())
    | .otherErr e => ([.attempt i], .error (.otherErr e))
    | .apiErr e =>
      if i < retries - 1 then
        let rest := saveDfFrom behav retries (i + 1)
        (.attempt i :: .sleep 5 :: rest.1, rest.2)
      else
        ([.attempt i], .error (.apiErr e))
  else ([], .ok ())
termination_by retries - i

/-- Embedding of `save_df` (`src/app.py:85-106`) with its default of
3 retries, abstracting the store as the per-attempt outcome `behav`. -/
def saveDf (behav : ℕ → StoreOutcome) : List SaveEv × Except SaveErr Unit :=
  saveDfFrom behav 3 0

/-- Exact weighted-buy numerator `Σ price_i × shares_i` over a list of
`(price, shares)` pairs. -/
def sumPQ (bs : List (ℚ × ℚ)) : ℚ :=
  (bs.map (fun b => b.1 * b.2)).sum

/-- Exact share total `Σ shares_i` over a list of `(price, shares)`
pairs. -/
def sumQ (bs : List (ℚ × ℚ)) : ℚ :=
  (bs.map (fun b => b.2)).sum

/-- The holdings produced by a sequence of buys of one code applied to
an initially absent holding, each through the buy branch of the
holdings auto-update. -/
def runBuys (code name : List Char) (bs : List (ℚ × ℚ)) : List Holding :=
  bs.foldl (fun hs b => applyBuy hs code name b.1 b.2) []

/-- The trade-log rows generated by a sequence of buys of one code
(fixed date, name and memo), as the trade recorder writes them. -/
def mkBuyTrades (date code name memo : List Char) (bs : List (ℚ × ℚ)) :
    List TradeRecord :=
  bs.map (fun b => ⟨date, code, name, .buy, b.1, b.2, b.1 * b.2, memo⟩)

/-! Helper lemmas shared by the claim theorems. -/

/-- Rounding a value that is already an integer is the identity. -/
theorem pyRound_intCast (m : ℤ) : pyRound (m : ℚ) = m := by
  unfold pyRound
  norm_num

/-- Unfolding of the trade handler on a valid buy. -/
theorem recordTrade_buy (st : LedgerState) (tDate tCode : List Char)
    (price qty : ℚ) (memo fetchedName : List Char)
    (h : tCode ≠ [] ∧ 0 < price ∧ 0 < qty) :
    recordTrade st tDate tCode .buy price qty memo fetchedName =
      ([.tradeW (st.trades ++
          [⟨tDate, normalize_code tCode,
            (if fetchedName = [] then tCode else fetchedName), .buy, price,
            qty, price * qty, memo⟩]),
        .holdW (applyBuy (loadHoldings st.holdings) (normalize_code tCode)
          (if fetchedName = [] then tCode else fetchedName) price qty),
        .cashW (st.cashRows.headD 0 - price * qty)],
       ⟨st.trades ++
          [⟨tDate, normalize_code tCode,
            (if fetchedName = [] then tCode else fetchedName), .buy, price,
            qty, price * qty, memo⟩],
        applyBuy (loadHoldings st.holdings) (normalize_code tCode)
          (if fetchedName = [] then tCode else fetchedName) price qty,
        [st.cashRows.headD 0 - price * qty]⟩) := by
  rw [recordTrade, if_pos h]

/-- Unfolding of the trade handler on a valid sell. -/
theorem recordTrade_sell (st : LedgerState) (tDate tCode : List Char)
    (price qty : ℚ) (memo fetchedName : List Char)
    (h : tCode ≠ [] ∧ 0 < price ∧ 0 < qty) :
    recordTrade st tDate tCode .sell price qty memo fetchedName =
      ([.tradeW (st.trades ++
          [⟨tDate, normalize_code tCode,
            (if fetchedName = [] then tCode else fetchedName), .sell, price,
            qty, price * qty, memo⟩]),
        .holdW (applySell (loadHoldings st.holdings) (normalize_code tCode)
          qty),
        .cashW (st.cashRows.headD 0 + price * qty)],
       ⟨st.trades ++
          [⟨tDate, normalize_code tCode,
            (if fetchedName = [] then tCode else fetchedName), .sell, price,
            qty, price * qty, memo⟩],
        applySell (loadHoldings st.holdings) (normalize_code tCode) qty,
        [st.cashRows.headD 0 + price * qty]⟩) := by
  rw [recordTrade, if_pos h]

/-- A sell touching no row leaves the holdings rows unchanged. -/
theorem applySell_of_no_match (hs : List Holding) (code : List Char)
    (qty : ℚ) (hno : ∀ h ∈ hs, h.code ≠ code) :
    applySell hs code qty = hs := by
  induction hs with
  | nil => rfl
  | cons h rest ih =>
    rw [applySell, if_neg (hno h (List.mem_cons_self h rest))]
    exact congrArg (h :: ·) (ih fun x hx => hno x (List.mem_cons_of_mem h hx))

/-- A sell of at least the held count deletes the first matching row. -/
theorem applySell_delete (pre post : List Holding) (h : Holding)
    (code : List Char) (qty : ℚ) (hpre : ∀ x ∈ pre, x.code ≠ code)
    (hcode : h.code = code) (hqty : h.qty - qty ≤ 0) :
    applySell (pre ++ h :: post) code qty = pre ++ post := by
  induction pre with
  | nil =>
    rw [List.nil_append, applySell, if_pos hcode,
      if_neg (not_lt.mpr hqty), List.nil_append]
  | cons p rest ih =>
    rw [List.cons_append, applySell,
      if_neg (hpre p (List.mem_cons_self p rest)), List.cons_append]
    exact congrArg (p :: ·)
      (ih fun x hx => hpre x (List.mem_cons_of_mem p hx))

/-- Loading the holdings sheet is the identity when every stored code
is already in canonical form. -/
theorem loadHoldings_of_normalized (hs : List Holding)
    (hn : ∀ h ∈ hs, normalize_code h.code = h.code) :
    loadHoldings hs = hs := by
  unfold loadHoldings
  induction hs with
  | nil => rfl
  | cons h rest ih =>
    rw [List.map_cons, hn h (List.mem_cons_self h rest)]
    exact congrArg (h :: ·) (ih fun x hx => hn x (List.mem_cons_of_mem h hx))

/-! Claim theorems. -/

/-- C1, counterexample. Selling 151 shares against a 150-share holding
of `7203.T` does not fail: the handler performs its writes, the
holding row is deleted (not left unchanged), and the cash balance is
increased by the sale amount. -/
theorem C1_counterexample :
    (recordTrade ⟨[], [⟨"7203.T".data, "T".data, 1000, 150⟩], [0]⟩
        "2024-06-15".data "7203".data .sell 1000 151 [] []).2.holdings
        = [] ∧
    (recordTrade ⟨[], [⟨"7203.T".data, "T".data, 1000, 150⟩], [0]⟩
        "2024-06-15".data "7203".data .sell 1000 151 [] []).2.holdings
        ≠ [⟨"7203.T".data, "T".data, 1000, 150⟩] ∧
    (recordTrade ⟨[], [⟨"7203.T".data, "T".data, 1000, 150⟩], [0]⟩
        "2024-06-15".data "7203".data .sell 1000 151 [] []).2.cashRows
        = [151000] ∧
    (recordTrade ⟨[], [⟨"7203.T".data, "T".data, 1000, 150⟩], [0]⟩
        "2024-06-15".data "7203".data .sell 1000 151 [] []).1 ≠ [] := by
  rw [recordTrade_sell _ _ _ _ _ _ _ ⟨by decide, by norm_num, by norm_num⟩]
  refine ⟨?_, ?_, ?_, ?_⟩
  · have hload : loadHoldings [⟨"7203.T".data, "T".data, 1000, 150⟩]
        = [⟨"7203.T".data, "T".data, 1000, 150⟩] :=
      loadHoldings_of_normalized _ (by decide)
    show applySell _ _ 151 = []
    rw [hload]
    have := applySell_delete [] [] ⟨"7203.T".data, "T".data, 1000, 150⟩
      (normalize_code "7203".data) 151 (by simp) (by decide) (by norm_num)
    simpa using this
  · have hload : loadHoldings [⟨"7203.T".data, "T".data, 1000, 150⟩]
        = [⟨"7203.T".data, "T".data, 1000, 150⟩] :=
      loadHoldings_of_normalized _ (by decide)
    show applySell _ _ 151 ≠ _
    rw [hload]
    have := applySell_delete [] [] ⟨"7203.T".data, "T".data, 1000, 150⟩
      (normalize_code "7203".data) 151 (by simp) (by decide) (by norm_num)
    simp only [List.nil_append] at this
    rw [this]
    simp
  · show [List.headD [0] 0 + 1000 * 151] = [151000]
    norm_num
  · simp

/-- C1, amended. A sell whose share count is at least the held share
count of the first matching holdings row raises no error: the handler
still performs all three writes, the matching row is deleted from
Holdings, and the cash balance is increased by `price × shares`
(holdings codes assumed already canonical). -/
theorem C1_amended (st : LedgerState) (tDate tCode : List Char)
    (price qty : ℚ) (memo fetchedName : List Char)
    (pre post : List Holding) (h : Holding)
    (hval : tCode ≠ [] ∧ 0 < price ∧ 0 < qty)
    (hsplit : st.holdings = pre ++ h :: post)
    (hnorm : ∀ x ∈ st.holdings, normalize_code x.code = x.code)
    (hpre : ∀ x ∈ pre, x.code ≠ normalize_code tCode)
    (hcode : h.code = normalize_code tCode)
    (hqty : h.qty ≤ qty) :
    (recordTrade st tDate tCode .sell price qty memo fetchedName).2.holdings
      = pre ++ post ∧
    (recordTrade st tDate tCode .sell price qty memo fetchedName).2.trades
      = st.trades ++
        [⟨tDate, normalize_code tCode,
          (if fetchedName = [] then tCode else fetchedName), .sell, price,
          qty, price * qty, memo⟩] ∧
    (recordTrade st tDate tCode .sell price qty memo fetchedName).2.cashRows
      = [st.cashRows.headD 0 + price * qty] ∧
    ((recordTrade st tDate tCode .sell price qty memo fetchedName).1.map
      writeTable) = [.tradeLog, .holdingsT, .cashT] := by
  rw [recordTrade_sell _ _ _ _ _ _ _ hval]
  rw [loadHoldings_of_normalized st.holdings hnorm, hsplit]
  exact ⟨applySell_delete pre post h (normalize_code tCode) qty hpre hcode
      (by linarith), rfl, rfl, rfl⟩

/-- C1, witness for the amended theorem: selling 151 of a 150-share
holding deletes the row, logs the trade and credits the cash. -/
theorem C1_witness :
    (recordTrade ⟨[], [⟨"7203.T".data, "T".data, 1000, 150⟩], [500]⟩
        "2024-06-15".data "7203".data .sell 1000 151 [] []).2.holdings
      = [] ∧
    (recordTrade ⟨[], [⟨"7203.T".data, "T".data, 1000, 150⟩], [500]⟩
        "2024-06-15".data "7203".data .sell 1000 151 [] []).2.cashRows
      = [500 + 1000 * 151] := by
  have h := C1_amended ⟨[], [⟨"7203.T".data, "T".data, 1000, 150⟩], [500]⟩
    "2024-06-15".data "7203".data 1000 151 [] [] []
    [] ⟨"7203.T".data, "T".data, 1000, 150⟩
    ⟨by decide, by norm_num, by norm_num⟩ rfl (by decide) (by simp)
    (by decide) (by norm_num)
  exact ⟨by simpa using h.1, by simpa using h.2.2.1⟩

/-- C2, counterexample. On a concrete valid buy, the handler's writes
in program order target the trade log first, then Holdings, then
Cash, so the claimed order (Holdings first, trade log last) is false. -/
theorem C2_counterexample :
    ((recordTrade ⟨[], [], []⟩ "2024-06-15".data "7203".data .buy 1 1 []
        []).1.map writeTable) = [.tradeLog, .holdingsT, .cashT] ∧
    ((recordTrade ⟨[], [], []⟩ "2024-06-15".data "7203".data .buy 1 1 []
        []).1.map writeTable) ≠ [.holdingsT, .cashT, .tradeLog] := by
  rw [recordTrade_buy _ _ _ _ _ _ _ ⟨by decide, by norm_num, by norm_num⟩]
  exact ⟨rfl, by decide⟩

/-- C2, amended. Within a single record-trade operation the writes
happen in the order: the TradeLog append is saved first, then
Holdings, then CashBalance last. -/
theorem C2_amended (st : LedgerState) (tDate tCode : List Char)
    (side : Side) (price qty : ℚ) (memo fetchedName : List Char)
    (hval : tCode ≠ [] ∧ 0 < price ∧ 0 < qty) :
    ((recordTrade st tDate tCode side price qty memo fetchedName).1.map
      writeTable) = [.tradeLog, .holdingsT, .cashT] := by
  cases side
  · rw [recordTrade_buy _ _ _ _ _ _ _ hval]; rfl
  · rw [recordTrade_sell _ _ _ _ _ _ _ hval]; rfl

/-- C2, witness for the amended theorem at a concrete sell. -/
theorem C2_witness :
    ((recordTrade ⟨[], [], []⟩ "2024-06-15".data "9984".data .sell 2 3 []
        []).1.map writeTable) = [.tradeLog, .holdingsT, .cashT] :=
  C2_amended ⟨[], [], []⟩ "2024-06-15".data "9984".data .sell 2 3 [] []
    ⟨by decide, by norm_num, by norm_num⟩

/-- C9. A sell of a code with no matching Holdings row (codes assumed
canonical) raises no error and leaves the holdings rows exactly as
they were, while the trade is still appended to the log and the cash
balance still increased by `price × shares`. -/
theorem C9_sell_no_holding (st : LedgerState) (tDate tCode : List Char)
    (price qty : ℚ) (memo fetchedName : List Char)
    (hval : tCode ≠ [] ∧ 0 < price ∧ 0 < qty)
    (hnorm : ∀ x ∈ st.holdings, normalize_code x.code = x.code)
    (hno : ∀ x ∈ st.holdings, x.code ≠ normalize_code tCode) :
    (recordTrade st tDate tCode .sell price qty memo fetchedName).2.holdings
      = st.holdings ∧
    (recordTrade st tDate tCode .sell price qty memo fetchedName).2.trades
      = st.trades ++
        [⟨tDate, normalize_code tCode,
          (if fetchedName = [] then tCode else fetchedName), .sell, price,
          qty, price * qty, memo⟩] ∧
    (recordTrade st tDate tCode .sell price qty memo fetchedName).2.cashRows
      = [st.cashRows.headD 0 + price * qty] ∧
    ((recordTrade st tDate tCode .sell price qty memo fetchedName).1.map
      writeTable) = [.tradeLog, .holdingsT, .cashT] := by
  rw [recordTrade_sell _ _ _ _ _ _ _ hval]
  rw [loadHoldings_of_normalized st.holdings hnorm]
  exact ⟨applySell_of_no_match st.holdings (normalize_code tCode) qty hno,
    rfl, rfl, rfl⟩

/-- C9, witness: selling a code absent from Holdings logs the trade,
keeps Holdings intact and credits the cash. -/
theorem C9_witness :
    (recordTrade ⟨[], [⟨"6758.T".data, "S".data, 100, 10⟩], [50]⟩
        "2024-06-15".data "7203".data .sell 4 5 [] []).2.holdings
      = [⟨"6758.T".data, "S".data, 100, 10⟩] ∧
    (recordTrade ⟨[], [⟨"6758.T".data, "S".data, 100, 10⟩], [50]⟩
        "2024-06-15".data "7203".data .sell 4 5 [] []).2.cashRows
      = [50 + 4 * 5] := by
  have h := C9_sell_no_holding
    ⟨[], [⟨"6758.T".data, "S".data, 100, 10⟩], [50]⟩
    "2024-06-15".data "7203".data 4 5 [] []
    ⟨by decide, by norm_num, by norm_num⟩ (by decide) (by decide)
  exact ⟨by simpa using h.1, by simpa using h.2.2.1⟩

/-- C10. When the cash sheet has no data row, the balance used is 0,
so the persisted balance after the trade is `-amount` for a buy and
`+amount` for a sell. -/
theorem C10_empty_cash (st : LedgerState) (tDate tCode : List Char)
    (price qty : ℚ) (memo fetchedName : List Char)
    (hval : tCode ≠ [] ∧ 0 < price ∧ 0 < qty)
    (hcash : st.cashRows = []) :
    (recordTrade st tDate tCode .buy price qty memo fetchedName).2.cashRows
      = [-(price * qty)] ∧
    (recordTrade st tDate tCode .sell price qty memo fetchedName).2.cashRows
      = [price * qty] := by
  rw [recordTrade_buy _ _ _ _ _ _ _ hval,
    recordTrade_sell _ _ _ _ _ _ _ hval, hcash]
  constructor
  · show [List.headD [] 0 - price * qty] = [-(price * qty)]
    rw [List.headD_nil, zero_sub]
  · show [List.headD [] 0 + price * qty] = [price * qty]
    rw [List.headD_nil, zero_add]

/-- C10, witness: a buy of amount 6 against an empty cash sheet stores
-6, a sell stores 6. -/
theorem C10_witness :
    (recordTrade ⟨[], [], []⟩ "2024-06-15".data "7203".data .buy 2 3 []
        []).2.cashRows = [-(2 * 3 : ℚ)] ∧
    (recordTrade ⟨[], [], []⟩ "2024-06-15".data "7203".data .sell 2 3 []
        []).2.cashRows = [(2 : ℚ) * 3] :=
  C10_empty_cash ⟨[], [], []⟩ "2024-06-15".data "7203".data 2 3 [] []
    ⟨by decide, by norm_num, by norm_num⟩ rfl

/-- Membership phrasing of the daily-record guard. -/
theorem daily_cond_iff (hist : List HistPoint) (today : List Char) :
    today ∉ hist.map (fun q => q.date) ↔ ∀ pt ∈ hist, pt.date ≠ today := by
  simp [List.mem_map]

/-- C5. The daily recorder appends a history point exactly when no
existing point carries today's date and the total asset is positive,
and two invocations on the same date grow the table by at most one
point in total. -/
theorem C5_daily (hist : List HistPoint) (today : List Char)
    (a p l a2 p2 l2 : ℚ) :
    (maybeRecordDaily hist today a p l ≠ hist ↔
      ((∀ pt ∈ hist, pt.date ≠ today) ∧ 0 < a)) ∧
    ((∀ pt ∈ hist, pt.date ≠ today) → 0 < a →
      maybeRecordDaily hist today a p l
        = hist ++ [⟨today, pyRound a, pyRound p, pyRound l⟩]) ∧
    (maybeRecordDaily (maybeRecordDaily hist today a p l) today a2 p2
      l2).length ≤ hist.length + 1 := by
  have hmem := daily_cond_iff hist today
  refine ⟨?_, ?_, ?_⟩
  · unfold maybeRecordDaily
    by_cases hc : today ∉ hist.map (fun q => q.date) ∧ 0 < a
    · rw [if_pos hc]
      constructor
      · intro _
        exact ⟨hmem.mp hc.1, hc.2⟩
      · intro _ hEq
        have := congrArg List.length hEq
        simp at this
    · rw [if_neg hc]
      constructor
      · intro h
        exact absurd rfl h
      · intro h
        exact absurd ⟨hmem.mpr h.1, h.2⟩ hc
  · intro h1 h2
    unfold maybeRecordDaily
    rw [if_pos ⟨hmem.mpr h1, h2⟩]
  · by_cases hc : today ∉ hist.map (fun q => q.date) ∧ 0 < a
    · have hr : maybeRecordDaily hist today a p l
          = hist ++ [⟨today, pyRound a, pyRound p, pyRound l⟩] := by
        rw [maybeRecordDaily, if_pos hc]
      rw [hr, maybeRecordDaily, if_neg]
      · simp
      · intro h
        apply h.1
        simp
    · have hr : maybeRecordDaily hist today a p l = hist := by
        rw [maybeRecordDaily, if_neg hc]
      rw [hr]
      by_cases hc2 : today ∉ hist.map (fun q => q.date) ∧ 0 < a2
      · rw [maybeRecordDaily, if_pos hc2]
        simp
      · rw [maybeRecordDaily, if_neg hc2]
        simp

/-- C5, witness: on an empty history the first call of the day records
one point and a second call the same day is a no-op. -/
theorem C5_witness :
    maybeRecordDaily [] "2024-06-15".data 500000 1 2
      = [⟨"2024-06-15".data, pyRound 500000, pyRound 1, pyRound 2⟩] ∧
    (maybeRecordDaily (maybeRecordDaily [] "2024-06-15".data 500000 1 2)
      "2024-06-15".data 600000 3 4).length ≤ 0 + 1 := by
  have h := C5_daily [] "2024-06-15".data 500000 1 2 600000 3 4
  exact ⟨h.2.1 (by simp) (by norm_num), by simpa using h.2.2⟩

/-- The quarter number of `src/app.py:435` is the ceiling of
`month / 3` for any real month. -/
theorem quarterOf_eq_ceil (month : ℕ) (hm : 1 ≤ month) :
    (quarterOf month : ℤ) = ⌈(month : ℚ) / 3⌉ := by
  have h1 : 3 * ((month - 1) / 3) < month := by omega
  have h2 : month ≤ 3 * ((month - 1) / 3) + 3 := by omega
  have hq : (quarterOf month : ℚ) = (((month - 1) / 3 : ℕ) : ℚ) + 1 := by
    unfold quarterOf
    push_cast
    ring
  rw [eq_comm, Int.ceil_eq_iff]
  constructor
  · push_cast
    rw [hq, lt_div_iff₀ (by norm_num : (0:ℚ) < 3)]
    have : ((3 * ((month - 1) / 3) : ℕ) : ℚ) < ((month : ℕ) : ℚ) := by
      exact_mod_cast h1
    push_cast at this
    linarith
  · push_cast
    rw [hq, div_le_iff₀ (by norm_num : (0:ℚ) < 3)]
    have : ((month : ℕ) : ℚ) ≤ ((3 * ((month - 1) / 3) + 3 : ℕ) : ℚ) := by
      exact_mod_cast h2
    push_cast at this
    linarith

/-- Bounded phrasing of the already-snapped guard. -/
theorem snap_cond_iff (snap : List SnapRow) (qk : List Char) :
    (¬ ∃ r ∈ snap, qk <:+: r.date) ↔ ∀ r ∈ snap, ¬ qk <:+: r.date := by
  simp

/-- C6. The quarterly recorder writes rows if and only if the month is
one of 3, 6, 9, 12, no existing snapshot row's date contains the
quarter key `"<year>-Q<quarter>"` as a substring, and at least one
holding exists; on trigger it appends one row per holding whose date
field embeds the quarter key, and the quarter equals the ceiling of
`month / 3`. -/
theorem C6_quarterly (snap : List SnapRow) (year month : ℕ)
    (todayStr : List Char) (holds : List QuoteRow) :
    (1 ≤ month → (quarterOf month : ℤ) = ⌈(month : ℚ) / 3⌉) ∧
    (maybeRecordQuarterly snap year month todayStr holds ≠ snap ↔
      (month ∈ [3, 6, 9, 12] ∧
        (∀ r ∈ snap, ¬ quarterKey year month <:+: r.date) ∧
        holds ≠ [])) ∧
    (month ∈ [3, 6, 9, 12] →
      (∀ r ∈ snap, ¬ quarterKey year month <:+: r.date) → holds ≠ [] →
      maybeRecordQuarterly snap year month todayStr holds
        = snap ++ holds.map (fun h =>
            ⟨todayStr ++ '(' :: quarterKey year month ++ [')'], h.code,
             h.name, h.price.map pyRound, h.per.map pyRound1,
             h.pbr.map pyRound1, h.roe.map pyRound1⟩)) := by
  refine ⟨quarterOf_eq_ceil month, ?_, ?_⟩
  · unfold maybeRecordQuarterly
    by_cases hc : month ∈ [3, 6, 9, 12] ∧
        ¬(∃ r ∈ snap, quarterKey year month <:+: r.date) ∧ holds ≠ []
    · rw [if_pos hc]
      constructor
      · intro _
        exact ⟨hc.1, (snap_cond_iff snap _).mp hc.2.1, hc.2.2⟩
      · intro _ hEq
        have hlen := congrArg List.length hEq
        simp at hlen
        exact hc.2.2 hlen
    · rw [if_neg hc]
      constructor
      · intro h
        exact absurd rfl h
      · intro h
        exact absurd ⟨h.1, (snap_cond_iff snap _).mpr h.2.1, h.2.2⟩ hc
  · intro h1 h2 h3
    unfold maybeRecordQuarterly
    rw [if_pos ⟨h1, (snap_cond_iff snap _).mpr h2, h3⟩]

/-- C6, witness: in June with an empty snapshot sheet and one holding,
one tagged row is appended and the quarter is 2. -/
theorem C6_witness :
    maybeRecordQuarterly [] 2024 6 "2024-06-30".data
        [⟨"7203.T".data, "T".data, some 1500, none, none, none⟩]
      = [⟨"2024-06-30".data ++ '(' :: quarterKey 2024 6 ++ [')'],
          "7203.T".data, "T".data, some (pyRound 1500), none, none,
          none⟩] ∧
    (quarterOf 6 : ℤ) = ⌈((6 : ℕ) : ℚ) / 3⌉ := by
  have h := C6_quarterly [] 2024 6 "2024-06-30".data
    [⟨"7203.T".data, "T".data, some 1500, none, none, none⟩]
  refine ⟨?_, h.1 (by norm_num)⟩
  rw [h.2.2 (by decide) (by simp) (by simp)]
  simp

/-- C7. The table-write wrapper attempts the overwrite at most 3
times, sleeps a fixed 5 time-units between attempts, retries only on
the transient API-error classification, propagates any other error
immediately, and after exhausting all retries propagates the last
transient error to the caller. -/
theorem C7_save_df (behav : ℕ → StoreOutcome) :
    (behav 0 = .ok → saveDf behav = ([.attempt 0], .ok ())) ∧
    (∀ e, behav 0 = .otherErr e →
      saveDf behav = ([.attempt 0], .error (.otherErr e))) ∧
    (∀ e, behav 0 = .apiErr e → behav 1 = .ok →
      saveDf behav = ([.attempt 0, .sleep 5, .attempt 1], .ok ())) ∧
    (∀ e f, behav 0 = .apiErr e → behav 1 = .otherErr f →
      saveDf behav
        = ([.attempt 0, .sleep 5, .attempt 1], .error (.otherErr f))) ∧
    (∀ e f, behav 0 = .apiErr e → behav 1 = .apiErr f → behav 2 = .ok →
      saveDf behav = ([.attempt 0, .sleep 5, .attempt 1, .sleep 5,
        .attempt 2], .ok ())) ∧
    (∀ e f g, behav 0 = .apiErr e → behav 1 = .apiErr f →
      behav 2 = .otherErr g →
      saveDf behav = ([.attempt 0, .sleep 5, .attempt 1, .sleep 5,
        .attempt 2], .error (.otherErr g))) ∧
    (∀ e f g, behav 0 = .apiErr e → behav 1 = .apiErr f →
      behav 2 = .apiErr g →
      saveDf behav = ([.attempt 0, .sleep 5, .attempt 1, .sleep 5,
        .attempt 2], .error (.apiErr g))) := by
  refine ⟨?_, ?_, ?_, ?_, ?_, ?_, ?_⟩
  · intro h0
    rw [saveDf, saveDfFrom, h0]
    simp
  · intro e h0
    rw [saveDf, saveDfFrom, h0]
    simp
  · intro e h0 h1
    rw [saveDf, saveDfFrom, h0, saveDfFrom, h1]
    simp
  · intro e f h0 h1
    rw [saveDf, saveDfFrom, h0, saveDfFrom, h1]
    simp
  · intro e f h0 h1 h2
    rw [saveDf, saveDfFrom, h0, saveDfFrom, h1, saveDfFrom, h2]
    simp
  · intro e f g h0 h1 h2
    rw [saveDf, saveDfFrom, h0, saveDfFrom, h1, saveDfFrom, h2]
    simp
  · intro e f g h0 h1 h2
    rw [saveDf, saveDfFrom, h0, saveDfFrom, h1, saveDfFrom, h2]
    simp

/-- C7, witness: a store failing every attempt with a transient API
error yields three attempts, two sleeps of 5, and the last error. -/
theorem C7_witness :
    saveDf (fun _ => .apiErr 7)
      = ([.attempt 0, .sleep 5, .attempt 1, .sleep 5, .attempt 2],
         .error (.apiErr 7)) :=
  (C7_save_df (fun _ => .apiErr 7)).2.2.2.2.2.2 7 7 7 rfl rfl rfl

theorem dropWhile_cons_head_false {α : Type} (p : α → Bool) (l : List α)
    (b : α) (t : List α) (h : l.dropWhile p = b :: t) : p b = false := by
  induction l with
  | nil => cases h
  | cons a l ih =>
    rw [List.dropWhile_cons] at h
    by_cases hp : p a
    · rw [if_pos hp] at h
      exact ih h
    · rw [if_neg hp] at h
      obtain ⟨rfl, -⟩ := List.cons.inj h
      simpa using hp

theorem toUpper_idem (c : Char) : c.toUpper.toUpper = c.toUpper := by
  by_cases h : 97 ≤ c.toNat ∧ c.toNat ≤ 122
  · have hc : c = Char.ofNat c.toNat := (Char.ofNat_toNat c).symm
    rw [hc]
    obtain ⟨h1, h2⟩ := h
    generalize c.toNat = n at h1 h2 ⊢
    interval_cases n <;> decide
  · have hfix : c.toUpper = c := by
      simp only [Char.toUpper]
      exact if_neg h
    rw [hfix, hfix]

theorem isWhitespace_toUpper (c : Char) :
    c.toUpper.isWhitespace = c.isWhitespace := by
  by_cases h : 97 ≤ c.toNat ∧ c.toNat ≤ 122
  · have hc : c = Char.ofNat c.toNat := (Char.ofNat_toNat c).symm
    rw [hc]
    obtain ⟨h1, h2⟩ := h
    generalize c.toNat = n at h1 h2 ⊢
    interval_cases n <;> decide
  · have hfix : c.toUpper = c := by
      simp only [Char.toUpper]
      exact if_neg h
    rw [hfix]

theorem pyStrip_head?_not_ws (l : List Char) (a : Char)
    (ha : (pyStrip l).head? = some a) : a.isWhitespace = false := by
  unfold pyStrip at ha
  obtain ⟨t, ht⟩ := List.rdropWhile_prefix Char.isWhitespace
    (l.dropWhile Char.isWhitespace)
  cases hr : (l.dropWhile Char.isWhitespace).rdropWhile Char.isWhitespace with
  | nil => rw [hr] at ha; cases ha
  | cons b r =>
    rw [hr] at ha ht
    have hba : b = a := by simpa using ha
    subst hba
    have hm : l.dropWhile Char.isWhitespace = b :: (r ++ t) := by
      rw [← ht]
      rfl
    exact dropWhile_cons_head_false Char.isWhitespace l b (r ++ t) hm

theorem pyStrip_getLast?_not_ws (l : List Char) (a : Char)
    (ha : (pyStrip l).getLast? = some a) : a.isWhitespace = false := by
  unfold pyStrip at ha
  have hne : (l.dropWhile Char.isWhitespace).rdropWhile Char.isWhitespace
      ≠ [] := by
    intro h
    rw [h] at ha
    cases ha
  have hlast := List.rdropWhile_last_not Char.isWhitespace
    (l.dropWhile Char.isWhitespace) hne
  rw [List.getLast?_eq_getLast _ hne] at ha
  rw [Option.some.inj ha] at hlast
  simpa using hlast

theorem pyStrip_eq_self_of (l : List Char)
    (h1 : ∀ a, l.head? = some a → a.isWhitespace = false)
    (h2 : ∀ a, l.getLast? = some a → a.isWhitespace = false) :
    pyStrip l = l := by
  unfold pyStrip
  have hd : l.dropWhile Char.isWhitespace = l := by
    rw [List.dropWhile_eq_self_iff]
    intro hl
    cases l with
    | nil => simp at hl
    | cons b r =>
      have := h1 b rfl
      simp [this]
  rw [hd, List.rdropWhile_eq_self_iff]
  intro hl
  have := h2 (l.getLast hl) (List.getLast?_eq_getLast l hl)
  simp [this]

theorem map_toUpper_idem (l : List Char) :
    (l.map Char.toUpper).map Char.toUpper = l.map Char.toUpper := by
  rw [List.map_map]
  exact List.map_congr_left fun c _ => toUpper_idem c



theorem normCode_head_not_ws (x : List Char) (a : Char)
    (ha : ((pyStrip x).map Char.toUpper).head? = some a) :
    a.isWhitespace = false := by
  rw [List.head?_map] at ha
  cases hps : (pyStrip x).head? with
  | none => rw [hps] at ha; cases ha
  | some b =>
    rw [hps] at ha
    have hab : b.toUpper = a := by simpa using ha
    rw [← hab, isWhitespace_toUpper]
    exact pyStrip_head?_not_ws x b hps

theorem getLast?_map_char (f : Char → Char) (l : List Char) :
    (l.map f).getLast? = l.getLast?.map f := by
  induction l with
  | nil => rfl
  | cons b r ih =>
    cases r with
    | nil => rfl
    | cons c s =>
      rw [show List.map f (b :: c :: s) = f b :: f c :: List.map f s from
        rfl, List.getLast?_cons_cons]
      exact ih

theorem normCode_getLast_not_ws (x : List Char) (a : Char)
    (ha : ((pyStrip x).map Char.toUpper).getLast? = some a) :
    a.isWhitespace = false := by
  rw [getLast?_map_char] at ha
  cases hps : (pyStrip x).getLast? with
  | none => rw [hps] at ha; cases ha
  | some b =>
    rw [hps] at ha
    have hab : b.toUpper = a := by simpa using ha
    rw [← hab, isWhitespace_toUpper]
    exact pyStrip_getLast?_not_ws x b hps

theorem normalize_code_idem (x : List Char) :
    normalize_code (normalize_code x) = normalize_code x := by
  have huHead := normCode_head_not_ws x
  have huLast := normCode_getLast_not_ws x
  have huUpper := map_toUpper_idem (pyStrip x)
  by_cases hdot : '.' ∈ (pyStrip x).map Char.toUpper
  · have hy : normalize_code x = (pyStrip x).map Char.toUpper := by
      unfold normalize_code
      rw [if_pos hdot]
    rw [hy]
    unfold normalize_code
    rw [pyStrip_eq_self_of _ huHead huLast, huUpper, if_pos hdot]
  · by_cases hlen : ((pyStrip x).map Char.toUpper).length ≤ 5
    · have hy : normalize_code x
          = (pyStrip x).map Char.toUpper ++ ['.', 'T'] := by
        unfold normalize_code
        rw [if_neg hdot, if_pos hlen]
      rw [hy]
      unfold normalize_code
      have hstrip : pyStrip ((pyStrip x).map Char.toUpper ++ ['.', 'T'])
          = (pyStrip x).map Char.toUpper ++ ['.', 'T'] := by
        apply pyStrip_eq_self_of
        · intro a ha
          cases hu : (pyStrip x).map Char.toUpper with
          | nil =>
            rw [hu] at ha
            have hdotA : '.' = a := by simpa using ha
            rw [← hdotA]
            rfl
          | cons b r =>
            rw [hu, List.cons_append] at ha
            have hba : b = a := by simpa using ha
            subst hba
            apply huHead
            rw [hu]
            rfl
        · intro a ha
          have h2 : ((pyStrip x).map Char.toUpper ++ ['.', 'T'])
              = (((pyStrip x).map Char.toUpper ++ ['.']) ++ ['T']) := by
            rw [List.append_assoc]
            rfl
          rw [h2, List.getLast?_concat] at ha
          have hta : 'T' = a := by simpa using ha
          rw [← hta]
          rfl
      have hupper : (((pyStrip x).map Char.toUpper ++ ['.', 'T']).map
          Char.toUpper) = (pyStrip x).map Char.toUpper ++ ['.', 'T'] := by
        rw [List.map_append, huUpper]
        rfl
      rw [hstrip, hupper, if_pos (by simp : '.' ∈ (pyStrip x).map
        Char.toUpper ++ ['.', 'T'])]
    · have hy : normalize_code x = (pyStrip x).map Char.toUpper := by
        unfold normalize_code
        rw [if_neg hdot, if_neg hlen]
      rw [hy]
      unfold normalize_code
      rw [pyStrip_eq_self_of _ huHead huLast, huUpper, if_neg hdot,
        if_neg hlen]


/-- C8. The normalizer is idempotent and total: after strip and
upper-case, a string containing a dot is returned unchanged, a
dot-free string of length at most 5 gets the fixed domestic suffix
`".T"`, and a longer dot-free string passes through unchanged. -/
theorem C8_normalize (x : List Char) :
    normalize_code (normalize_code x) = normalize_code x ∧
    ('.' ∈ (pyStrip x).map Char.toUpper →
      normalize_code x = (pyStrip x).map Char.toUpper) ∧
    ('.' ∉ (pyStrip x).map Char.toUpper →
      ((pyStrip x).map Char.toUpper).length ≤ 5 →
      normalize_code x = (pyStrip x).map Char.toUpper ++ ['.', 'T']) ∧
    ('.' ∉ (pyStrip x).map Char.toUpper →
      5 < ((pyStrip x).map Char.toUpper).length →
      normalize_code x = (pyStrip x).map Char.toUpper) := by
  refine ⟨normalize_code_idem x, ?_, ?_, ?_⟩
  · intro hdot
    unfold normalize_code
    rw [if_pos hdot]
  · intro hdot hlen
    unfold normalize_code
    rw [if_neg hdot, if_pos hlen]
  · intro hdot hlen
    unfold normalize_code
    rw [if_neg hdot, if_neg (not_le.mpr hlen)]

/-- C8, witness: normalizing `" aapl "` strips, upper-cases, appends
the suffix, and a second normalization is a no-op. -/
theorem C8_witness :
    normalize_code (normalize_code " aapl ".data)
      = normalize_code " aapl ".data ∧
    normalize_code " aapl ".data
      = (pyStrip " aapl ".data).map Char.toUpper ++ ['.', 'T'] := by
  have h := C8_normalize " aapl ".data
  exact ⟨h.1, h.2.2.1 (by decide) (by decide)⟩

theorem sumPQ_append_singleton (cs : List (ℚ × ℚ)) (b : ℚ × ℚ) :
    sumPQ (cs ++ [b]) = sumPQ cs + b.1 * b.2 := by
  simp [sumPQ]

theorem sumQ_append_singleton (cs : List (ℚ × ℚ)) (b : ℚ × ℚ) :
    sumQ (cs ++ [b]) = sumQ cs + b.2 := by
  simp [sumQ]

theorem sumQ_pos (bs : List (ℚ × ℚ)) (hne : bs ≠ [])
    (hq : ∀ b ∈ bs, 0 < b.2) : 0 < sumQ bs := by
  apply List.sum_pos
  · intro x hx
    obtain ⟨b, hb, rfl⟩ := List.mem_map.mp hx
    exact hq b hb
  · simpa using hne

theorem runBuys_append_singleton (code name : List Char)
    (cs : List (ℚ × ℚ)) (b : ℚ × ℚ) :
    runBuys code name (cs ++ [b])
      = applyBuy (runBuys code name cs) code name b.1 b.2 := by
  unfold runBuys
  rw [List.foldl_append]
  rfl

/-- The incremental weighted-average update agrees with the exact
batch formula whenever every intermediate average is a whole number,
so that the per-buy rounding never acts. -/
theorem runBuys_exact (code name : List Char) (bs : List (ℚ × ℚ))
    (hne : bs ≠ []) (hq : ∀ b ∈ bs, 0 < b.2)
    (hint : ∀ k, 1 ≤ k → k ≤ bs.length →
      ∃ m : ℤ, sumPQ (bs.take k) / sumQ (bs.take k) = (m : ℚ)) :
    runBuys code name bs = [⟨code, name, sumPQ bs / sumQ bs, sumQ bs⟩] := by
  induction bs using List.reverseRecOn with
  | nil => exact absurd rfl hne
  | append_singleton cs b ih =>
    rcases eq_or_ne cs [] with rfl | hcs
    · have hb2 : (0:ℚ) < b.2 := hq b (by simp)
      simp only [List.nil_append, runBuys, List.foldl_cons, List.foldl_nil,
        applyBuy, sumPQ, sumQ, List.map_cons, List.map_nil, List.sum_cons,
        List.sum_nil, add_zero]
      rw [mul_div_assoc, div_self (ne_of_gt hb2), mul_one]
    · have ihh := ih hcs
        (fun x hx => hq x (List.mem_append_left _ hx))
        (fun k hk1 hk2 => by
          have h := hint k hk1 (le_trans hk2 (by simp))
          rwa [List.take_append_of_le_length hk2] at h)
      rw [runBuys_append_singleton, ihh]
      have hQpos : 0 < sumQ cs :=
        sumQ_pos cs hcs (fun x hx => hq x (List.mem_append_left _ hx))
      have hAQ : sumPQ cs / sumQ cs * sumQ cs = sumPQ cs :=
        div_mul_cancel₀ _ (ne_of_gt hQpos)
      have hinner : sumPQ cs / sumQ cs * sumQ cs + b.1 * b.2
          = sumPQ (cs ++ [b]) := by
        rw [hAQ, sumPQ_append_singleton]
      have hsum : sumQ cs + b.2 = sumQ (cs ++ [b]) :=
        (sumQ_append_singleton cs b).symm
      obtain ⟨m, hm⟩ := hint (cs ++ [b]).length (by simp) (le_refl _)
      rw [List.take_length] at hm
      simp only [applyBuy, if_pos rfl]
      rw [hinner, hsum, hm, pyRound_intCast, ← hm]
      simp

theorem filter_map_all_true {A B : Type} (p : B → Bool) (f : A → B)
    (l : List A) (h : ∀ a, p (f a) = true) :
    (l.map f).filter p = l.map f := by
  induction l with
  | nil => rfl
  | cons a r ih => simp [List.filter_cons, h a, ih]

/-- The summarizer totals over a pure-buy trade list are the exact
weighted sums. -/
theorem summary_mkBuyTrades (date code name memo : List Char)
    (bs : List (ℚ × ℚ)) :
    buyAmount (mkBuyTrades date code name memo bs) code = sumPQ bs ∧
    buyQty (mkBuyTrades date code name memo bs) code = sumQ bs := by
  constructor
  · unfold buyAmount mkBuyTrades sumPQ
    rw [filter_map_all_true _ _ _ (fun b => by simp), List.map_map]
    exact congrArg List.sum (List.map_congr_left fun b _ => rfl)
  · unfold buyQty mkBuyTrades sumQ
    rw [filter_map_all_true _ _ _ (fun b => by simp), List.map_map]
    exact congrArg List.sum (List.map_congr_left fun b _ => rfl)

/-- C3, counterexample. Buying (price 1, 1 share), (2, 1), (4, 1) in
that order yields a persisted average cost of 3, while the reverse
order yields 2 and the exact weighted average is 7/3: the per-buy
rounding at persistence feeds rounded values into later buys, so the
result is order-dependent and differs from the batch formula. -/
theorem C3_counterexample :
    runBuys "A".data "N".data [((1:ℚ),(1:ℚ)), (2,1), (4,1)]
      = [⟨"A".data, "N".data, 3, 3⟩] ∧
    runBuys "A".data "N".data [((4:ℚ),(1:ℚ)), (2,1), (1,1)]
      = [⟨"A".data, "N".data, 2, 3⟩] ∧
    sumPQ [((1:ℚ),(1:ℚ)), (2,1), (4,1)]
      / sumQ [((1:ℚ),(1:ℚ)), (2,1), (4,1)] = 7/3 ∧
    ((3:ℚ) ≠ 7/3) ∧ ((2:ℚ) ≠ 7/3) ∧ ((3:ℚ) ≠ (2:ℚ)) := by
  refine ⟨?_, ?_, ?_, by norm_num, by norm_num, by norm_num⟩
  · simp only [runBuys, List.foldl_cons, List.foldl_nil, applyBuy,
      if_pos rfl]
    norm_num [pyRound]
  · simp only [runBuys, List.foldl_cons, List.foldl_nil, applyBuy,
      if_pos rfl]
    norm_num [pyRound]
  · norm_num [sumPQ, sumQ]

/-- C3, amended. The buy branch rounds the persisted average cost to
the whole currency unit on every buy and later buys compute from the
stored rounded value; whenever every intermediate weighted average is
a whole number, so that the rounding never acts, the resulting
holding's average cost equals `Σ(price_i × shares_i) / Σ(shares_i)`,
an order-independent value. -/
theorem C3_amended (code name : List Char) (bs : List (ℚ × ℚ))
    (hne : bs ≠ []) (hq : ∀ b ∈ bs, 0 < b.2)
    (hint : ∀ k, 1 ≤ k → k ≤ bs.length →
      ∃ m : ℤ, sumPQ (bs.take k) / sumQ (bs.take k) = (m : ℚ)) :
    runBuys code name bs
      = [⟨code, name, sumPQ bs / sumQ bs, sumQ bs⟩] :=
  runBuys_exact code name bs hne hq hint

/-- C3, witness: buys (10, 1) and (20, 1) have integer intermediate
averages and end at the exact weighted average 15. -/
theorem C3_witness :
    runBuys "A".data "N".data [((10:ℚ),(1:ℚ)), (20,1)]
      = [⟨"A".data, "N".data, 15, 2⟩] := by
  have h := C3_amended "A".data "N".data [((10:ℚ),(1:ℚ)), (20,1)]
    (by simp) ?_ ?_
  · rw [h]
    norm_num [sumPQ, sumQ]
  · intro b hb
    simp at hb
    rcases hb with rfl | rfl <;> norm_num
  · intro k h1 h2
    simp at h2
    interval_cases k
    · exact ⟨10, by norm_num [sumPQ, sumQ]⟩
    · exact ⟨15, by norm_num [sumPQ, sumQ]⟩

/-- C4, counterexample. For the no-sell trade sequence (1, 1 share),
(2, 1), (4, 1) of one code, the summarizer recomputes average cost
7/3 from the log while the live Holdings row ends at 3 through the
per-buy rounded incremental update, so the two computations differ. -/
theorem C4_counterexample :
    summaryAvgCost (mkBuyTrades "D".data "A".data "N".data []
        [((1:ℚ),(1:ℚ)), (2,1), (4,1)]) "A".data = 7/3 ∧
    runBuys "A".data "N".data [((1:ℚ),(1:ℚ)), (2,1), (4,1)]
      = [⟨"A".data, "N".data, 3, 3⟩] ∧
    ((7:ℚ)/3 ≠ 3) ∧ (pyRound ((7:ℚ)/3) ≠ 3) := by
  refine ⟨?_, ?_, by norm_num, ?_⟩
  · have hs := summary_mkBuyTrades "D".data "A".data "N".data []
      [((1:ℚ),(1:ℚ)), (2,1), (4,1)]
    unfold summaryAvgCost
    rw [hs.1, hs.2, if_pos (by norm_num [sumQ] :
      (0:ℚ) < sumQ [((1:ℚ),(1:ℚ)), (2,1), (4,1)])]
    norm_num [sumPQ, sumQ]
  · simp only [runBuys, List.foldl_cons, List.foldl_nil, applyBuy,
      if_pos rfl]
    norm_num [pyRound]
  · norm_num [pyRound]

/-- C4, amended. The summarizer recomputes the exact weighted average
`Σ buy amount / Σ buy shares` from the log, while the live Holdings
average cost is the per-buy rounded incremental value; whenever every
intermediate weighted average is a whole number, so that the rounding
never acts, the two computations agree: the Holdings cost column
equals the summarizer's average cost. -/
theorem C4_amended (date code name memo : List Char) (bs : List (ℚ × ℚ))
    (hne : bs ≠ []) (hq : ∀ b ∈ bs, 0 < b.2)
    (hint : ∀ k, 1 ≤ k → k ≤ bs.length →
      ∃ m : ℤ, sumPQ (bs.take k) / sumQ (bs.take k) = (m : ℚ)) :
    (runBuys code name bs).map (fun h => h.cost)
      = [summaryAvgCost (mkBuyTrades date code name memo bs) code] := by
  rw [runBuys_exact code name bs hne hq hint]
  have hs := summary_mkBuyTrades date code name memo bs
  unfold summaryAvgCost
  rw [hs.1, hs.2, if_pos (sumQ_pos bs hne hq)]
  rfl

/-- C4, witness: for buys (10, 1) and (20, 1) the live Holdings cost
and the summarizer's recomputed average cost coincide. -/
theorem C4_witness :
    (runBuys "A".data "N".data [((10:ℚ),(1:ℚ)), (20,1)]).map
        (fun h => h.cost)
      = [summaryAvgCost (mkBuyTrades "D".data "A".data "N".data []
          [((10:ℚ),(1:ℚ)), (20,1)]) "A".data] := by
  have h := C4_amended "D".data "A".data "N".data []
    [((10:ℚ),(1:ℚ)), (20,1)] (by simp) ?_ ?_
  · exact h
  · intro b hb
    simp at hb
    rcases hb with rfl | rfl <;> norm_num
  · intro k h1 h2
    simp at h2
    interval_cases k
    · exact ⟨10, by norm_num [sumPQ, sumQ]⟩
    · exact ⟨15, by norm_num [sumPQ, sumQ]⟩

end StockApp
